import Mathlib

/-!
# The limited peer set of `share/availability/discovery/set.go`

A shallow embedding of `limitedSet` (a mutex-guarded `map[peer.ID]struct{}` with a
`uint` limit and an unbuffered channel that wakes readers blocked in `Peers`) and the
properties of its operations.

Modelling decisions:

* `peer.ID` is a Go string type: `PeerID := String`.
* The map `ps` is a key set, `Finset PeerID`. Go leaves the order of `range` over a map
  unspecified, so `Peers` takes the enumeration `rangeKeys` used by the runtime as an
  argument; the theorems about a snapshot assume only that it lists every key once.
* `limit` is a `uint` (64 bits wide); `int(ps.limit)` is the two's complement
  reinterpretation `intOfUint`.
* Every operation runs under the lock `lk`, so an operation is one atomic step on the
  state. The state of the unbuffered channel `waitPeer` is its queue of parked receivers
  (goroutines blocked in the `select` of `Peers`); senders never park because `TryAdd`
  only sends inside a `select` with a `default` case.
* An `error` made by `errors.New` is observed through its text; `ctx.Err()` is `nil`
  exactly while `ctx.Done()` is not yet closed.
-/

namespace discovery

/-- The type `peer.ID`, a Go string type. -/
abbrev PeerID := String

/-- A goroutine identifier, naming a caller of `Peers`. -/
abbrev Gid := Nat

/-- A Go `error`, observed through its message. -/
structure GoError where
  text : String
deriving DecidableEq, Repr

/-- The function `errors.New`. -/
def errorsNew (text : String) : GoError := ⟨text⟩

/-- The error of `TryAdd` at line 49. -/
def errAlreadyAdded : GoError := errorsNew "share: discovery: peer already added"

/-- The error of `TryAdd` at line 52. -/
def errLimitReached : GoError := errorsNew "share: discovery: peers limit reached"

/-- A `context.Context` as `Peers` sees it: `err` is what `ctx.Err()` returns, and
`ctx.Done()` is closed exactly when it is not `nil`. -/
structure Context where
  err : Option GoError
deriving DecidableEq, Repr

/-- Width in bits of the Go types `uint` and `int`. -/
def uintSize : Nat := 64

/-- The conversion `int(u)` of a `uint` value: reinterpretation in two's complement. -/
def intOfUint (u : Nat) : Int :=
  if u % 2 ^ uintSize < 2 ^ (uintSize - 1) then ((u % 2 ^ uintSize : Nat) : Int)
  else ((u % 2 ^ uintSize : Nat) : Int) - 2 ^ uintSize

/-- The struct `limitedSet`: the key set of the map `ps`, the `limit`, and the queue of
receivers parked on the channel `waitPeer`, oldest first. -/
structure limitedSet where
  ps : Finset PeerID
  limit : Nat
  waitPeer : List Gid
deriving DecidableEq

/-- The constructor `newLimitedSet`: an empty map, the given limit, a fresh channel. -/
def newLimitedSet (limit : Nat) : limitedSet :=
  { ps := ∅, limit := limit, waitPeer := [] }

namespace limitedSet

/-- The method `Contains`: the comma-ok lookup `_, ok := ps.ps[p]`. -/
def Contains (s : limitedSet) (p : PeerID) : Bool :=
  decide (p ∈ s.ps)

/-- The method `Size`: `len(ps.ps)`, an `int`. -/
def Size (s : limitedSet) : Int :=
  (s.ps.card : Int)

/-- The wake loop of `TryAdd` (lines 56-65) run against the queue of parked receivers:
the send case of the `select` fires while a receiver is parked and hands it `p`; when the
queue is empty the `default` case leaves the loop. Returns the hand-offs made, in order,
and the queue that is left. -/
def wakeLoop (p : PeerID) : List Gid → List (Gid × PeerID) × List Gid
  | [] => ([], [])
  | g :: q => ((g, p) :: (wakeLoop p q).1, (wakeLoop p q).2)

/-- What one call of `TryAdd` produces: the state afterwards, the returned error
(`none` is `nil`), and the hand-offs made over `waitPeer`. -/
structure TryAddResult where
  state : limitedSet
  err : Option GoError
  handed : List (Gid × PeerID)
deriving DecidableEq

/-- The method `TryAdd`. -/
def TryAdd (s : limitedSet) (p : PeerID) : TryAddResult :=
  if p ∈ s.ps then
    { state := s, err := some errAlreadyAdded, handed := [] }
  else if (s.ps.card : Int) ≥ intOfUint s.limit then
    { state := s, err := some errLimitReached, handed := [] }
  else
    { state := { ps := insert p s.ps, limit := s.limit, waitPeer := (wakeLoop p s.waitPeer).2 },
      err := none,
      handed := (wakeLoop p s.waitPeer).1 }

/-- The method `Remove`. -/
def Remove (s : limitedSet) (id : PeerID) : limitedSet :=
  if s.limit > 0 then
    { ps := s.ps.erase id, limit := s.limit, waitPeer := s.waitPeer }
  else s

/-- How a call of `Peers` stands: it has returned a slice (`[]` also stands for `nil`)
and an error, or it is parked in the `select` of lines 91-96. -/
inductive PeersStep where
  | returned (out : List PeerID) (err : Option GoError)
  | blocked
deriving DecidableEq

/-- A step of a `Peers` call together with the state it leaves. -/
structure PeersResult where
  state : limitedSet
  step : PeersStep
deriving DecidableEq

/-- Entering the `select` of lines 91-96 as goroutine `g`. No sender is ever parked on
`waitPeer`, so the receive case cannot fire on entry: the call returns `nil, ctx.Err()`
when `ctx.Done()` is already closed, and otherwise parks on the channel. -/
def peersSelect (s : limitedSet) (g : Gid) (ctx : Context) : PeersResult :=
  match ctx.err with
  | some e => { state := s, step := .returned [] (some e) }
  | none => { state := { ps := s.ps, limit := s.limit, waitPeer := s.waitPeer ++ [g] },
              step := .blocked }

/-- The method `Peers` up to the point where it returns or parks: the snapshot branch
(lines 80-87) appends every key that `range` yields, the other branch enters the
`select`. -/
def Peers (rangeKeys : Finset PeerID → List PeerID) (s : limitedSet) (g : Gid)
    (ctx : Context) : PeersResult :=
  if s.ps.card > 0 then
    { state := s
      step := .returned ((rangeKeys s.ps).foldl (fun out p => out ++ [p]) []) none }
  else peersSelect s g ctx

/-- The receive case of the `select` (lines 94-95): the parked call got `p`. -/
def peersRecv (p : PeerID) : PeersStep :=
  .returned [p] none

/-- The `ctx.Done()` case of the `select` (lines 92-93) firing for the parked goroutine
`g`: it leaves the receive queue and returns `nil, ctx.Err()`. -/
def peersDone (s : limitedSet) (g : Gid) (ctx : Context) : PeersResult :=
  { state := { ps := s.ps, limit := s.limit, waitPeer := s.waitPeer.erase g },
    step := .returned [] ctx.err }

/-- What the calls of `Peers` woken by a `TryAdd` return. -/
def wokenReturns (r : TryAddResult) : List (Gid × PeersStep) :=
  r.handed.map fun h => (h.1, peersRecv h.2)

end limitedSet

/-- The steps that act on a `limitedSet`: the five methods, a caller that found the set
empty under the lock and reaches the `select` only now, and the `ctx.Done()` of a parked
caller firing. -/
inductive Op where
  | TryAdd (p : PeerID)
  | Remove (p : PeerID)
  | Contains (p : PeerID)
  | Size
  | Peers (g : Gid) (ctx : Context)
  | select (g : Gid) (ctx : Context)
  | done (g : Gid) (ctx : Context)
deriving DecidableEq

/-- Whether a step is a call of `Remove`. -/
def Op.isRemove : Op → Bool
  | .Remove _ => true
  | _ => false

/-- The state after one step. -/
def step (rangeKeys : Finset PeerID → List PeerID) (s : limitedSet) : Op → limitedSet
  | .TryAdd p => (s.TryAdd p).state
  | .Remove p => s.Remove p
  | .Contains _ => s
  | .Size => s
  | .Peers g ctx => (s.Peers rangeKeys g ctx).state
  | .select g ctx => (s.peersSelect g ctx).state
  | .done g ctx => (s.peersDone g ctx).state

/-- The state after a sequence of steps. -/
def run (rangeKeys : Finset PeerID → List PeerID) (s : limitedSet) (ops : List Op) :
    limitedSet :=
  ops.foldl (step rangeKeys) s

/-- The runtime's `range` over a map visits every key exactly once. -/
def EnumeratesKeys (rangeKeys : Finset PeerID → List PeerID) : Prop :=
  ∀ m : Finset PeerID, (rangeKeys m).Nodup ∧ ∀ p, p ∈ rangeKeys m ↔ p ∈ m

/-- One admissible iteration order: the keys in increasing order. -/
def sortedKeys (m : Finset PeerID) : List PeerID :=
  m.sort (· ≤ ·)

/-- Submitting the peers of a list through `TryAdd` one after the other: the returned
errors, in order, and the final state. -/
def tryAddAll (s : limitedSet) : List PeerID → List (Option GoError) × limitedSet
  | [] => ([], s)
  | p :: l => ((s.TryAdd p).err :: (tryAddAll (s.TryAdd p).state l).1,
               (tryAddAll (s.TryAdd p).state l).2)

/-- The state of scenario A of the specification once `P1` and `P2` are in a set of
capacity 2. -/
def scenarioA : limitedSet :=
  (((newLimitedSet 2).TryAdd "P1").state.TryAdd "P2").state

/-- The state of scenario C of the specification when two calls of `Peers`, by the
goroutines 1 and 2, are blocked on a fresh set of capacity 5. -/
def scenarioC : limitedSet :=
  run sortedKeys (newLimitedSet 5) [Op.Peers 1 ⟨none⟩, Op.Peers 2 ⟨none⟩]

/-- The value `context.Canceled`. -/
def ctxCanceled : GoError := errorsNew "context canceled"

/-- The value `context.DeadlineExceeded`. -/
def ctxDeadlineExceeded : GoError := errorsNew "context deadline exceeded"

/-- The non-blocking send `select { case ps.waitPeer <- p: default: }` of lines 60-64 on
the queue of parked receivers: with a receiver parked the send case fires, handing `p`
to the oldest one, which leaves the queue; with none the `default` case is taken
(`none`). -/
def trySend (p : PeerID) : List Gid → Option ((Gid × PeerID) × List Gid)
  | [] => none
  | g :: q => some ((g, p), q)

/-- The `for` loop of lines 57-65 run for at most `fuel` iterations, one non-blocking
send each: `none` when the fuel runs out before `break LOOP` is reached, and otherwise
the hand-offs made and the queue that is left. -/
def wakeLoopFuel (p : PeerID) : Nat → List Gid → Option (List (Gid × PeerID) × List Gid)
  | 0, _ => none
  | fuel + 1, q =>
    match trySend p q with
    | none => some ([], q)
    | some (h, rest) =>
      match wakeLoopFuel p fuel rest with
      | none => none
      | some r => some (h :: r.1, r.2)

/-- The `Remove` that the specification compares the code with: the delete without
the guard `ps.limit > 0`. -/
def removeUnguarded (s : limitedSet) (id : PeerID) : limitedSet :=
  { ps := s.ps.erase id, limit := s.limit, waitPeer := s.waitPeer }

/-- A set whose limit is the largest `uint`, `math.MaxUint`. -/
def maxUintSet : limitedSet :=
  newLimitedSet (2 ^ uintSize - 1)

/-- A set whose limit is the least `uint` above the largest `int`. -/
def overIntSet : limitedSet :=
  newLimitedSet (2 ^ (uintSize - 1))

/-! ## Auxiliary facts -/

theorem intOfUint_of_lt {u : Nat} (h : u < 2 ^ (uintSize - 1)) : intOfUint u = (u : Int) := by
  have h2 : u < 2 ^ uintSize := lt_trans h (by unfold uintSize; norm_num)
  unfold intOfUint
  rw [Nat.mod_eq_of_lt h2, if_pos h]

theorem intOfUint_le (u : Nat) : intOfUint u ≤ (u : Int) := by
  unfold intOfUint
  have h1 : u % 2 ^ uintSize ≤ u := Nat.mod_le _ _
  have h3 : (0 : Int) ≤ 2 ^ uintSize := by positivity
  split <;> omega

theorem intOfUint_zero : intOfUint 0 = 0 := by
  unfold intOfUint uintSize; norm_num

theorem sortedKeys_enumerates : EnumeratesKeys sortedKeys := by
  intro m
  exact ⟨Finset.sort_nodup _ m, fun p => Finset.mem_sort _⟩

theorem foldl_append_singleton (l : List PeerID) :
    l.foldl (fun out p => out ++ [p]) [] = l := by
  have key : ∀ (l acc : List PeerID), l.foldl (fun out p => out ++ [p]) acc = acc ++ l := by
    intro l
    induction l with
    | nil => intro acc; simp
    | cons a t ih => intro acc; simp [ih]
  simpa using key l []

theorem wakeLoop_handed (p : PeerID) (q : List Gid) :
    (limitedSet.wakeLoop p q).1 = q.map fun g => (g, p) := by
  induction q with
  | nil => rfl
  | cons g q ih => simp [limitedSet.wakeLoop, ih]

theorem wakeLoop_rest (p : PeerID) (q : List Gid) : (limitedSet.wakeLoop p q).2 = [] := by
  induction q with
  | nil => rfl
  | cons g q ih => simp [limitedSet.wakeLoop, ih]

theorem step_limit (rk : Finset PeerID → List PeerID) (s : limitedSet) (op : Op) :
    (step rk s op).limit = s.limit := by
  cases op <;> simp only [step, limitedSet.TryAdd, limitedSet.Remove, limitedSet.Peers,
    limitedSet.peersSelect, limitedSet.peersDone] <;> repeat (first | rfl | split)

theorem run_limit (rk : Finset PeerID → List PeerID) (ops : List Op) (s : limitedSet) :
    (run rk s ops).limit = s.limit := by
  induction ops generalizing s with
  | nil => rfl
  | cons op ops ih =>
    show (run rk (step rk s op) ops).limit = s.limit
    rw [ih, step_limit]

theorem step_card_le (rk : Finset PeerID → List PeerID) (s : limitedSet) (op : Op)
    (h : (s.ps.card : Int) ≤ max 0 (intOfUint s.limit)) :
    ((step rk s op).ps.card : Int) ≤ max 0 (intOfUint (step rk s op).limit) := by
  rw [step_limit]
  cases op with
  | TryAdd p =>
    simp only [step, limitedSet.TryAdd]
    split
    · exact h
    · split
      · exact h
      · rename_i hp hlim
        simp only [Finset.card_insert_of_not_mem hp]
        push_cast
        omega
  | Remove p =>
    simp only [step, limitedSet.Remove]
    split
    · have := Finset.card_erase_le (s := s.ps) (a := p)
      simp only
      omega
    · exact h
  | Contains p => exact h
  | Size => exact h
  | Peers g ctx =>
    simp only [step, limitedSet.Peers, limitedSet.peersSelect]
    repeat (first | exact h | split)
  | select g ctx =>
    simp only [step, limitedSet.peersSelect]
    repeat (first | exact h | split)
  | done g ctx => exact h

theorem run_card_le (rk : Finset PeerID → List PeerID) (ops : List Op) (s : limitedSet)
    (h : (s.ps.card : Int) ≤ max 0 (intOfUint s.limit)) :
    ((run rk s ops).ps.card : Int) ≤ max 0 (intOfUint (run rk s ops).limit) := by
  induction ops generalizing s with
  | nil => exact h
  | cons op ops ih => exact ih (step rk s op) (step_card_le rk s op h)

theorem step_mem_of_not_remove (rk : Finset PeerID → List PeerID) (s : limitedSet) (op : Op)
    (p : PeerID) (hop : op.isRemove = false) (hp : p ∈ s.ps) : p ∈ (step rk s op).ps := by
  cases op with
  | TryAdd q =>
    simp only [step, limitedSet.TryAdd]
    split
    · exact hp
    · split
      · exact hp
      · exact Finset.mem_insert_of_mem hp
  | Remove q => simp [Op.isRemove] at hop
  | Contains q => exact hp
  | Size => exact hp
  | Peers g ctx =>
    simp only [step, limitedSet.Peers, limitedSet.peersSelect]
    repeat (first | exact hp | split)
  | select g ctx =>
    simp only [step, limitedSet.peersSelect]
    repeat (first | exact hp | split)
  | done g ctx => exact hp

theorem run_mem_of_no_remove (rk : Finset PeerID → List PeerID) (ops : List Op)
    (s : limitedSet) (p : PeerID) (hops : ∀ op ∈ ops, op.isRemove = false) (hp : p ∈ s.ps) :
    p ∈ (run rk s ops).ps := by
  induction ops generalizing s with
  | nil => exact hp
  | cons op ops ih =>
    exact ih (step rk s op) (fun o ho => hops o (List.mem_cons_of_mem _ ho))
      (step_mem_of_not_remove rk s op p (hops op (List.mem_cons_self _ _)) hp)

theorem tryAdd_mem_of_ok (s : limitedSet) (p : PeerID) (hok : (s.TryAdd p).err = none) :
    p ∈ (s.TryAdd p).state.ps := by
  unfold limitedSet.TryAdd at hok ⊢
  by_cases hp : p ∈ s.ps
  · simp [hp] at hok
  · by_cases hl : ((s.ps.card : Nat) : Int) ≥ intOfUint s.limit
    · simp [hp, hl] at hok
    · simp [hp, hl]

theorem tryAdd_of_room (s : limitedSet) (p : PeerID) (hcap : s.limit < 2 ^ (uintSize - 1))
    (hp : p ∉ s.ps) (hroom : s.ps.card < s.limit) :
    s.TryAdd p = { state := { ps := insert p s.ps, limit := s.limit, waitPeer := [] },
                   err := none,
                   handed := s.waitPeer.map fun g => (g, p) } := by
  have hl : ¬ ((s.ps.card : Nat) : Int) ≥ intOfUint s.limit := by
    rw [intOfUint_of_lt hcap]; omega
  simp [limitedSet.TryAdd, hp, hl, wakeLoop_handed, wakeLoop_rest]

theorem tryAdd_of_full (s : limitedSet) (p : PeerID) (hcap : s.limit < 2 ^ (uintSize - 1))
    (hp : p ∉ s.ps) (hfull : s.limit ≤ s.ps.card) :
    s.TryAdd p = { state := s, err := some errLimitReached, handed := [] } := by
  have hl : ((s.ps.card : Nat) : Int) ≥ intOfUint s.limit := by
    rw [intOfUint_of_lt hcap]; omega
  simp [limitedSet.TryAdd, hp, hl]

theorem tryAddAll_spec (K : Nat) (hK : K < 2 ^ (uintSize - 1)) (l : List PeerID) :
    ∀ s : limitedSet, s.limit = K → l.Nodup → (∀ p ∈ l, p ∉ s.ps) → s.ps.card ≤ K →
      (tryAddAll s l).1
          = List.replicate (min (K - s.ps.card) l.length) none
            ++ List.replicate (l.length - (K - s.ps.card)) (some errLimitReached) ∧
      (tryAddAll s l).2.ps.card = min K (s.ps.card + l.length) := by
  induction l with
  | nil => intro s _ _ _ hc; simp [tryAddAll, hc]
  | cons p l ih =>
    intro s hlim hnd hdisj hc
    have hp : p ∉ s.ps := hdisj p (List.mem_cons_self _ _)
    have hnd2 := List.nodup_cons.mp hnd
    by_cases hroom : s.ps.card < K
    · have hadd := tryAdd_of_room s p (by rw [hlim]; exact hK) hp (by rw [hlim]; exact hroom)
      have hcard : (insert p s.ps).card = s.ps.card + 1 := Finset.card_insert_of_not_mem hp
      have hrec := ih { ps := insert p s.ps, limit := s.limit, waitPeer := [] } hlim hnd2.2
        (by
          intro q hq
          simp only [Finset.mem_insert, not_or]
          exact ⟨fun h => hnd2.1 (h ▸ hq), hdisj q (List.mem_cons_of_mem _ hq)⟩)
        (by simp only [hcard]; omega)
      simp only [hcard] at hrec
      simp only [tryAddAll, hadd, hrec.1, hrec.2, List.length_cons]
      have e1 : min (K - s.ps.card) (l.length + 1) = min (K - (s.ps.card + 1)) l.length + 1 := by
        omega
      have e2 : l.length + 1 - (K - s.ps.card) = l.length - (K - (s.ps.card + 1)) := by omega
      rw [e1, e2, List.replicate_succ]
      refine ⟨by simp, by omega⟩
    · have hfull := tryAdd_of_full s p (by rw [hlim]; exact hK) hp (by rw [hlim]; omega)
      have hrec := ih s hlim hnd2.2 (fun q hq => hdisj q (List.mem_cons_of_mem _ hq)) hc
      simp only [tryAddAll, hfull, hrec.1, hrec.2, List.length_cons]
      have e0 : K - s.ps.card = 0 := by omega
      simp only [e0, Nat.zero_min, List.replicate_zero, List.nil_append, Nat.sub_zero,
        List.replicate_succ]
      refine ⟨trivial, by omega⟩

theorem run_zero_capacity (rk : Finset PeerID → List PeerID) (ops : List Op) :
    (run rk (newLimitedSet 0) ops).ps = ∅ ∧ (run rk (newLimitedSet 0) ops).limit = 0 := by
  have h0 : (((newLimitedSet 0).ps.card : Nat) : Int)
      ≤ max 0 (intOfUint (newLimitedSet 0).limit) := by
    simp [newLimitedSet]
  have h := run_card_le rk ops (newLimitedSet 0) h0
  have hl : (run rk (newLimitedSet 0) ops).limit = 0 := run_limit rk ops (newLimitedSet 0)
  rw [hl, intOfUint_zero] at h
  refine ⟨Finset.card_eq_zero.mp ?_, hl⟩
  simp only [max_self] at h
  omega

theorem tryAdd_ok_eq (s : limitedSet) (p : PeerID) (hok : (s.TryAdd p).err = none) :
    s.TryAdd p = { state := { ps := insert p s.ps, limit := s.limit, waitPeer := [] },
                   err := none,
                   handed := s.waitPeer.map fun g => (g, p) } := by
  unfold limitedSet.TryAdd at hok ⊢
  by_cases hp : p ∈ s.ps
  · simp [hp] at hok
  · by_cases hl : ((s.ps.card : Nat) : Int) ≥ intOfUint s.limit
    · simp [hp, hl] at hok
    · simp [hp, hl, wakeLoop_handed, wakeLoop_rest]

theorem wakeLoopFuel_enough (p : PeerID) (q : List Gid) (k : Nat) :
    wakeLoopFuel p (q.length + 1 + k) q = some (limitedSet.wakeLoop p q) := by
  induction q with
  | nil =>
    have h : ([] : List Gid).length + 1 + k = k + 1 := by simp; omega
    rw [h]
    rfl
  | cons g q ih =>
    have h : (g :: q).length + 1 + k = (q.length + 1 + k) + 1 := by simp; omega
    rw [h]
    simp only [wakeLoopFuel, trySend, ih, limitedSet.wakeLoop]

theorem wakeLoopFuel_short (p : PeerID) (q : List Gid) (fuel : Nat) (h : fuel ≤ q.length) :
    wakeLoopFuel p fuel q = none := by
  induction q generalizing fuel with
  | nil =>
    have h0 : fuel = 0 := by simpa using h
    subst h0
    rfl
  | cons g q ih =>
    cases fuel with
    | zero => rfl
    | succ f =>
      have hf : f ≤ q.length := by simpa using h
      simp only [wakeLoopFuel, trySend, ih f hf]

theorem tryAdd_err_eq (s : limitedSet) (p : PeerID) (h : (s.TryAdd p).err ≠ none) :
    s.TryAdd p = { state := s, err := (s.TryAdd p).err, handed := [] } := by
  unfold limitedSet.TryAdd at h ⊢
  by_cases hp : p ∈ s.ps
  · simp [hp]
  · by_cases hl : ((s.ps.card : Nat) : Int) ≥ intOfUint s.limit
    · simp [hp, hl]
    · simp [hp, hl] at h

theorem intOfUint_neg_of_ge {u : Nat} (hlo : 2 ^ (uintSize - 1) ≤ u) (hhi : u < 2 ^ uintSize) :
    intOfUint u < 0 := by
  unfold intOfUint
  rw [Nat.mod_eq_of_lt hhi, if_neg (not_lt.mpr hlo)]
  have h : ((u : Nat) : Int) < ((2 ^ uintSize : Nat) : Int) := by exact_mod_cast hhi
  push_cast at h
  omega

theorem tryAdd_limit_over_int (s : limitedSet) (p : PeerID)
    (hlo : 2 ^ (uintSize - 1) ≤ s.limit) (hhi : s.limit < 2 ^ uintSize) (hp : p ∉ s.ps) :
    s.TryAdd p = { state := s, err := some errLimitReached, handed := [] } := by
  have hneg := intOfUint_neg_of_ge hlo hhi
  have hl : ((s.ps.card : Nat) : Int) ≥ intOfUint s.limit := by omega
  simp [limitedSet.TryAdd, hp, hl]

theorem run_empty_of_limit_zero (rk : Finset PeerID → List PeerID) (capacity : Nat)
    (ops : List Op) (h : (run rk (newLimitedSet capacity) ops).limit = 0) :
    (run rk (newLimitedSet capacity) ops).ps = ∅ := by
  have hc : capacity = 0 := by
    rw [run_limit] at h
    exact h
  subst hc
  exact (run_zero_capacity rk ops).1

/-! ## The capacity bound -/

/-- C1: for every capacity and every finite sequence of steps applied to the set built
by `newLimitedSet capacity`, `Size() ≤ capacity` holds after every step of the sequence
(after the first `n` steps, for every `n`). -/
theorem size_le_capacity (rangeKeys : Finset PeerID → List PeerID) (capacity : Nat)
    (ops : List Op) (n : Nat) :
    (run rangeKeys (newLimitedSet capacity) (ops.take n)).Size ≤ (capacity : Int) := by
  have h0 : (((newLimitedSet capacity).ps.card : Nat) : Int)
      ≤ max 0 (intOfUint (newLimitedSet capacity).limit) := by
    simp [newLimitedSet]
  have h := run_card_le rangeKeys (ops.take n) (newLimitedSet capacity) h0
  rw [run_limit] at h
  have h2 := intOfUint_le capacity
  have h3 : (newLimitedSet capacity).limit = capacity := rfl
  rw [h3] at h
  unfold limitedSet.Size
  omega

/-! ## The outcomes of `TryAdd` -/

/-- C2: when the capacity fits in a signed `int`, `TryAdd(p)` fails with the
"peer already added" error iff `p` is a member (whatever the size), fails with the
"peers limit reached" error iff `p` is not a member and `Size() ≥ capacity`, and succeeds
iff `p` is not a member and `Size() < capacity`; the two errors are different values. -/
theorem tryAdd_outcome (s : limitedSet) (p : PeerID) (hcap : s.limit < 2 ^ (uintSize - 1)) :
    ((s.TryAdd p).err = some errAlreadyAdded ↔ s.Contains p = true) ∧
    ((s.TryAdd p).err = some errLimitReached ↔
      s.Contains p = false ∧ s.Size ≥ (s.limit : Int)) ∧
    ((s.TryAdd p).err = none ↔ s.Contains p = false ∧ s.Size < (s.limit : Int)) ∧
    errAlreadyAdded ≠ errLimitReached := by
  have hne : errAlreadyAdded ≠ errLimitReached := by decide
  have hconv := intOfUint_of_lt hcap
  simp only [limitedSet.TryAdd, limitedSet.Contains, limitedSet.Size, hconv]
  by_cases hp : p ∈ s.ps
  · simp [hp, hne]
  · by_cases hl : ((s.ps.card : Nat) : Int) ≥ (s.limit : Int)
    · simp [hp, hl, hne.symm]
      exact ⟨by exact_mod_cast hl, hne⟩
    · simp [hp, hl]
      push_neg at hl
      exact ⟨by exact_mod_cast hl, hne⟩

/-- Scenario A of the specification as an instance of C2: with `P1` and `P2` in a set of
capacity 2, `TryAdd(P3)` is decided by the three rules. -/
theorem tryAdd_outcome_witness :
    scenarioA.limit < 2 ^ (uintSize - 1) ∧
    ((scenarioA.TryAdd "P3").err = some errAlreadyAdded ↔ scenarioA.Contains "P3" = true) ∧
    ((scenarioA.TryAdd "P3").err = some errLimitReached ↔
      scenarioA.Contains "P3" = false ∧ scenarioA.Size ≥ (scenarioA.limit : Int)) ∧
    ((scenarioA.TryAdd "P3").err = none ↔
      scenarioA.Contains "P3" = false ∧ scenarioA.Size < (scenarioA.limit : Int)) ∧
    errAlreadyAdded ≠ errLimitReached :=
  ⟨by decide, tryAdd_outcome scenarioA "P3" (by decide)⟩

/-- C3: if `TryAdd(p)` succeeds then afterwards `Contains(p)` is true, `Size()` is one
more than before, `Contains(q)` is unchanged for every `q ≠ p`, and the capacity is
unchanged. -/
theorem tryAdd_success_effect (s : limitedSet) (p : PeerID)
    (hok : (s.TryAdd p).err = none) :
    (s.TryAdd p).state.Contains p = true ∧
    (s.TryAdd p).state.Size = s.Size + 1 ∧
    (∀ q : PeerID, q ≠ p → (s.TryAdd p).state.Contains q = s.Contains q) ∧
    (s.TryAdd p).state.limit = s.limit := by
  unfold limitedSet.TryAdd at hok ⊢
  by_cases hp : p ∈ s.ps
  · simp [hp] at hok
  · by_cases hl : ((s.ps.card : Nat) : Int) ≥ intOfUint s.limit
    · simp [hp, hl] at hok
    · simp only [hp, hl, if_false, limitedSet.Contains, limitedSet.Size]
      refine ⟨by simp, ?_, ?_, trivial⟩
      · rw [Finset.card_insert_of_not_mem hp]; push_cast; ring
      · intro q hq
        simp [Finset.mem_insert, hq]

/-- An instance of C3: adding `P1` to the empty set of capacity 2. -/
theorem tryAdd_success_effect_witness :
    ((newLimitedSet 2).TryAdd "P1").state.Contains "P1" = true ∧
    ((newLimitedSet 2).TryAdd "P1").state.Size = (newLimitedSet 2).Size + 1 ∧
    (∀ q : PeerID, q ≠ "P1" →
      ((newLimitedSet 2).TryAdd "P1").state.Contains q = (newLimitedSet 2).Contains q) ∧
    ((newLimitedSet 2).TryAdd "P1").state.limit = (newLimitedSet 2).limit :=
  tryAdd_success_effect (newLimitedSet 2) "P1" (by decide)

/-! ## No duplicates -/

/-- C4: if `TryAdd(p)` succeeds and any steps without a `Remove` follow, then at every
point of that sequence a further `TryAdd(p)` fails with the "peer already added" error
and changes nothing, a snapshot taken by `Peers` lists `p` exactly once, and `Size()` is
one more than the number of members other than `p`. -/
theorem tryAdd_again_fails (rangeKeys : Finset PeerID → List PeerID)
    (hrange : EnumeratesKeys rangeKeys) (s : limitedSet) (p : PeerID) (ops : List Op)
    (n : Nat) (g : Gid) (ctx : Context)
    (hok : (s.TryAdd p).err = none) (hops : ∀ op ∈ ops, op.isRemove = false) :
    ((run rangeKeys (s.TryAdd p).state (ops.take n)).TryAdd p).err = some errAlreadyAdded ∧
    ((run rangeKeys (s.TryAdd p).state (ops.take n)).TryAdd p).state
      = run rangeKeys (s.TryAdd p).state (ops.take n) ∧
    (∃ out : List PeerID,
      ((run rangeKeys (s.TryAdd p).state (ops.take n)).Peers rangeKeys g ctx).step
        = .returned out none ∧ out.count p = 1) ∧
    (run rangeKeys (s.TryAdd p).state (ops.take n)).Size
      = (((run rangeKeys (s.TryAdd p).state (ops.take n)).ps.erase p).card : Int) + 1 := by
  have hmem : p ∈ (run rangeKeys (s.TryAdd p).state (ops.take n)).ps :=
    run_mem_of_no_remove rangeKeys (ops.take n) _ p
      (fun o ho => hops o (List.mem_of_mem_take ho)) (tryAdd_mem_of_ok s p hok)
  generalize run rangeKeys (s.TryAdd p).state (ops.take n) = t at hmem ⊢
  have hpos : t.ps.card > 0 := Finset.card_pos.mpr ⟨p, hmem⟩
  refine ⟨by simp [limitedSet.TryAdd, hmem], by simp [limitedSet.TryAdd, hmem], ?_, ?_⟩
  · refine ⟨rangeKeys t.ps, ?_, ?_⟩
    · simp [limitedSet.Peers, hpos, foldl_append_singleton]
    · exact List.count_eq_one_of_mem (hrange t.ps).1 (((hrange t.ps).2 p).mpr hmem)
  · unfold limitedSet.Size
    rw [Finset.card_erase_of_mem hmem]
    omega

/-- An instance of C4: after `P1` is added to a set of capacity 2 and `TryAdd(P2)`,
`Size()` and a `Peers` call follow, `P1` is refused and listed once. -/
theorem tryAdd_again_fails_witness :
    ((run sortedKeys ((newLimitedSet 2).TryAdd "P1").state
        ([Op.TryAdd "P2", Op.Size, Op.Peers 7 ⟨none⟩].take 3)).TryAdd "P1").err
      = some errAlreadyAdded ∧
    ((run sortedKeys ((newLimitedSet 2).TryAdd "P1").state
        ([Op.TryAdd "P2", Op.Size, Op.Peers 7 ⟨none⟩].take 3)).TryAdd "P1").state
      = run sortedKeys ((newLimitedSet 2).TryAdd "P1").state
          ([Op.TryAdd "P2", Op.Size, Op.Peers 7 ⟨none⟩].take 3) ∧
    (∃ out : List PeerID,
      ((run sortedKeys ((newLimitedSet 2).TryAdd "P1").state
          ([Op.TryAdd "P2", Op.Size, Op.Peers 7 ⟨none⟩].take 3)).Peers sortedKeys 8
            ⟨none⟩).step
        = .returned out none ∧ out.count "P1" = 1) ∧
    (run sortedKeys ((newLimitedSet 2).TryAdd "P1").state
        ([Op.TryAdd "P2", Op.Size, Op.Peers 7 ⟨none⟩].take 3)).Size
      = (((run sortedKeys ((newLimitedSet 2).TryAdd "P1").state
          ([Op.TryAdd "P2", Op.Size, Op.Peers 7 ⟨none⟩].take 3)).ps.erase "P1").card : Int)
        + 1 :=
  tryAdd_again_fails sortedKeys sortedKeys_enumerates (newLimitedSet 2) "P1"
    [Op.TryAdd "P2", Op.Size, Op.Peers 7 ⟨none⟩] 3 8 ⟨none⟩ (by decide)
    (by decide)

/-! ## More peers than capacity -/

/-- C5: for a capacity `K` that fits in a signed `int` and a list of `N > K` pairwise
distinct peers, submitting them through `TryAdd` to a fresh set in any order `l2` gives
exactly `K` successes and exactly `N - K` failures, every failure being the
"peers limit reached" error, and `Size()` is `K` afterwards. -/
theorem tryAdd_over_capacity (K : Nat) (l l2 : List PeerID)
    (hK : K < 2 ^ (uintSize - 1)) (hdistinct : l.Nodup) (hN : l.length > K)
    (horder : l2.Perm l) :
    (tryAddAll (newLimitedSet K) l2).1.length = l.length ∧
    (tryAddAll (newLimitedSet K) l2).1.count none = K ∧
    (tryAddAll (newLimitedSet K) l2).1.count (some errLimitReached) = l.length - K ∧
    (∀ e ∈ (tryAddAll (newLimitedSet K) l2).1, e = none ∨ e = some errLimitReached) ∧
    (tryAddAll (newLimitedSet K) l2).2.Size = (K : Int) := by
  have hnd : l2.Nodup := horder.nodup_iff.mpr hdistinct
  have hlen : l2.length = l.length := horder.length_eq
  have h := tryAddAll_spec K hK l2 (newLimitedSet K) rfl hnd
    (by intro p _; simp [newLimitedSet]) (by simp [newLimitedSet])
  have hc : (newLimitedSet K).ps.card = 0 := by simp [newLimitedSet]
  rw [hc] at h
  simp only [Nat.sub_zero, Nat.zero_add] at h
  have hmin1 : min K l2.length = K := by omega
  rw [hmin1] at h
  refine ⟨?_, ?_, ?_, ?_, ?_⟩
  · rw [h.1]; simp; omega
  · rw [h.1]; simp [List.count_replicate]
  · rw [h.1]; simp [List.count_replicate, hlen]
  · intro e he
    rw [h.1] at he
    rcases List.mem_append.mp he with h1 | h1
    · exact Or.inl (List.eq_of_mem_replicate h1)
    · exact Or.inr (List.eq_of_mem_replicate h1)
  · unfold limitedSet.Size
    rw [h.2]

/-- An instance of C5: three peers offered to a set of capacity 2, in the order
`P3, P1, P2`. -/
theorem tryAdd_over_capacity_witness :
    (tryAddAll (newLimitedSet 2) ["P3", "P1", "P2"]).1.length = ["P1", "P2", "P3"].length ∧
    (tryAddAll (newLimitedSet 2) ["P3", "P1", "P2"]).1.count none = 2 ∧
    (tryAddAll (newLimitedSet 2) ["P3", "P1", "P2"]).1.count (some errLimitReached)
      = ["P1", "P2", "P3"].length - 2 ∧
    (∀ e ∈ (tryAddAll (newLimitedSet 2) ["P3", "P1", "P2"]).1,
      e = none ∨ e = some errLimitReached) ∧
    (tryAddAll (newLimitedSet 2) ["P3", "P1", "P2"]).2.Size = ((2 : Nat) : Int) :=
  tryAdd_over_capacity 2 ["P1", "P2", "P3"] ["P3", "P1", "P2"] (by decide) (by decide)
    (by decide) (by decide)

/-! ## `Remove` -/

/-- C6: on a set with capacity `> 0`, after `Remove(p)`: `Contains(p)` is false,
`Contains(q)` is unchanged for every `q ≠ p`, `Size()` is one less than before if `p` was
a member and unchanged otherwise, and the capacity is unchanged. -/
theorem remove_effect (s : limitedSet) (p : PeerID) (hcap : s.limit > 0) :
    (s.Remove p).Contains p = false ∧
    (∀ q : PeerID, q ≠ p → (s.Remove p).Contains q = s.Contains q) ∧
    (s.Remove p).Size = (if s.Contains p = true then s.Size - 1 else s.Size) ∧
    (s.Remove p).limit = s.limit := by
  simp only [limitedSet.Remove, hcap, if_true, limitedSet.Contains, limitedSet.Size]
  refine ⟨by simp, ?_, ?_, trivial⟩
  · intro q hq
    simp [Finset.mem_erase, hq]
  · by_cases hp : p ∈ s.ps
    · have hpos : 0 < s.ps.card := Finset.card_pos.mpr ⟨p, hp⟩
      simp only [hp, decide_True, if_true, Finset.card_erase_of_mem hp]
      omega
    · simp [hp, Finset.erase_eq_of_not_mem hp]

/-- Scenario B of the specification as an instance of C6: `Remove(P1)` on the full set of
scenario A. -/
theorem remove_effect_witness :
    scenarioA.limit > 0 ∧
    (scenarioA.Remove "P1").Contains "P1" = false ∧
    (∀ q : PeerID, q ≠ "P1" → (scenarioA.Remove "P1").Contains q = scenarioA.Contains q) ∧
    (scenarioA.Remove "P1").Size
      = (if scenarioA.Contains "P1" = true then scenarioA.Size - 1 else scenarioA.Size) ∧
    (scenarioA.Remove "P1").limit = scenarioA.limit :=
  ⟨by decide, remove_effect scenarioA "P1" (by decide)⟩

/-! ## `Peers` -/

/-- C7: when the membership is non-empty, `Peers(ctx)` returns at once, whatever `ctx` is
(cancelled and expired contexts included), with no error and a slice that has no
duplicates, whose length is `Size()` and whose elements are exactly the peers `p` with
`Contains(p)`; the set is left as it was. -/
theorem peers_snapshot (rangeKeys : Finset PeerID → List PeerID)
    (hrange : EnumeratesKeys rangeKeys) (s : limitedSet) (g : Gid) (ctx : Context)
    (hne : ∃ p : PeerID, s.Contains p = true) :
    ∃ out : List PeerID,
      s.Peers rangeKeys g ctx = { state := s, step := .returned out none } ∧
      out.Nodup ∧ (out.length : Int) = s.Size ∧ ∀ p : PeerID, p ∈ out ↔ s.Contains p = true := by
  obtain ⟨p0, hp0⟩ := hne
  have hmem0 : p0 ∈ s.ps := by simpa [limitedSet.Contains] using hp0
  have hpos : s.ps.card > 0 := Finset.card_pos.mpr ⟨p0, hmem0⟩
  refine ⟨rangeKeys s.ps, ?_, (hrange s.ps).1, ?_, ?_⟩
  · simp [limitedSet.Peers, hpos, foldl_append_singleton]
  · have hfin : (rangeKeys s.ps).toFinset = s.ps := by
      ext q
      rw [List.mem_toFinset]
      exact (hrange s.ps).2 q
    have hcard := List.toFinset_card_of_nodup (hrange s.ps).1
    rw [hfin] at hcard
    unfold limitedSet.Size
    rw [hcard]
  · intro q
    simp only [limitedSet.Contains, decide_eq_true_eq]
    exact (hrange s.ps).2 q

/-- Scenario B of the specification as an instance of C7, with a context that is already
cancelled: after `Remove(P1)` the call returns a snapshot at once. -/
theorem peers_snapshot_witness :
    (∃ p : PeerID, (scenarioA.Remove "P1").Contains p = true) ∧
    ∃ out : List PeerID,
      (scenarioA.Remove "P1").Peers sortedKeys 3 ⟨some ctxCanceled⟩
        = { state := scenarioA.Remove "P1", step := .returned out none } ∧
      out.Nodup ∧ (out.length : Int) = (scenarioA.Remove "P1").Size ∧
      ∀ p : PeerID, p ∈ out ↔ (scenarioA.Remove "P1").Contains p = true :=
  ⟨⟨"P2", by decide⟩,
    peers_snapshot sortedKeys sortedKeys_enumerates (scenarioA.Remove "P1") 3
      ⟨some ctxCanceled⟩ ⟨"P2", by decide⟩⟩

/-- C8: on an empty set with any finite queue of `Peers` calls parked on the
notification channel, a successful `TryAdd(p)` makes every one of those calls return the
single-element slice `[p]` with no error, nobody else is woken and nobody stays parked,
and `Size()` is 1 afterwards. -/
theorem tryAdd_wakes_blocked (s : limitedSet) (p : PeerID) (hempty : s.Size = 0)
    (hok : (s.TryAdd p).err = none) :
    limitedSet.wokenReturns (s.TryAdd p)
      = s.waitPeer.map (fun g => (g, limitedSet.PeersStep.returned [p] none)) ∧
    (∀ g ∈ s.waitPeer,
      (g, limitedSet.PeersStep.returned [p] none) ∈ limitedSet.wokenReturns (s.TryAdd p)) ∧
    (s.TryAdd p).state.waitPeer = [] ∧
    (s.TryAdd p).state.Size = 1 := by
  have hcard : s.ps.card = 0 := by
    unfold limitedSet.Size at hempty
    exact_mod_cast hempty
  have hps : s.ps = ∅ := Finset.card_eq_zero.mp hcard
  have heq := tryAdd_ok_eq s p hok
  have hwoken : limitedSet.wokenReturns (s.TryAdd p)
      = s.waitPeer.map (fun g => (g, limitedSet.PeersStep.returned [p] none)) := by
    rw [heq]
    simp [limitedSet.wokenReturns, limitedSet.peersRecv, Function.comp_def]
  refine ⟨hwoken, ?_, ?_, ?_⟩
  · intro g hg
    rw [hwoken]
    exact List.mem_map.mpr ⟨g, hg, rfl⟩
  · rw [heq]
  · rw [heq]
    simp [limitedSet.Size, hps]

/-- Scenario C of the specification as an instance of C8: capacity 5, two blocked
callers, and both return `[PX]`. -/
theorem tryAdd_wakes_blocked_witness :
    (limitedSet.wokenReturns (scenarioC.TryAdd "PX")
      = scenarioC.waitPeer.map (fun g => (g, limitedSet.PeersStep.returned ["PX"] none)) ∧
    (∀ g ∈ scenarioC.waitPeer,
      (g, limitedSet.PeersStep.returned ["PX"] none)
        ∈ limitedSet.wokenReturns (scenarioC.TryAdd "PX")) ∧
    (scenarioC.TryAdd "PX").state.waitPeer = [] ∧
    (scenarioC.TryAdd "PX").state.Size = 1) ∧
    scenarioC.waitPeer = [1, 2] ∧
    limitedSet.wokenReturns (scenarioC.TryAdd "PX")
      = [(1, .returned ["PX"] none), (2, .returned ["PX"] none)] :=
  ⟨tryAdd_wakes_blocked scenarioC "PX" (by decide) (by decide), by decide, by decide⟩

/-- C9: on an empty set, a call of `Peers(ctx)` by a goroutine `g` whose context ends
with reason `ctx.Err()` before any peer is handed to it returns no peers and exactly that
error, and leaves the set as it was: both when the context has ended before the `select`
is entered, and when the call parks first and the context ends while it is parked. In
whatever state `t` the set is when the context of a parked call ends, the call returns
`nil, ctx.Err()` and changes neither membership nor capacity. -/
theorem peers_cancelled (rangeKeys : Finset PeerID → List PeerID) (s t : limitedSet)
    (g : Gid) (ctx : Context) (e : GoError)
    (hempty : s.Size = 0) (hg : g ∉ s.waitPeer) (hdone : ctx.err = some e) :
    s.Peers rangeKeys g ctx = { state := s, step := .returned [] (some e) } ∧
    (s.Peers rangeKeys g ⟨none⟩).step = .blocked ∧
    limitedSet.peersDone (s.Peers rangeKeys g ⟨none⟩).state g ctx
      = { state := s, step := .returned [] (some e) } ∧
    (limitedSet.peersDone t g ctx).step = .returned [] (some e) ∧
    (limitedSet.peersDone t g ctx).state.ps = t.ps ∧
    (limitedSet.peersDone t g ctx).state.limit = t.limit := by
  have hcard : s.ps.card = 0 := by
    unfold limitedSet.Size at hempty
    exact_mod_cast hempty
  have herase : (s.waitPeer ++ [g]).erase g = s.waitPeer := by
    rw [List.erase_append_right _ hg]
    simp
  refine ⟨?_, ?_, ?_, ?_, rfl, rfl⟩
  · simp [limitedSet.Peers, limitedSet.peersSelect, hcard, hdone]
  · simp [limitedSet.Peers, limitedSet.peersSelect, hcard]
  · simp [limitedSet.Peers, limitedSet.peersSelect, limitedSet.peersDone, hcard, hdone,
      herase]
  · simp [limitedSet.peersDone, hdone]

/-- Scenario D of the specification as an instance of C9: capacity 5, an empty set, and a
deadline that passes with no `TryAdd`. -/
theorem peers_cancelled_witness :
    (newLimitedSet 5).Peers sortedKeys 1 ⟨some ctxDeadlineExceeded⟩
      = { state := newLimitedSet 5, step := .returned [] (some ctxDeadlineExceeded) } ∧
    ((newLimitedSet 5).Peers sortedKeys 1 ⟨none⟩).step = .blocked ∧
    limitedSet.peersDone ((newLimitedSet 5).Peers sortedKeys 1 ⟨none⟩).state 1
        ⟨some ctxDeadlineExceeded⟩
      = { state := newLimitedSet 5, step := .returned [] (some ctxDeadlineExceeded) } ∧
    (limitedSet.peersDone scenarioC 1 ⟨some ctxDeadlineExceeded⟩).step
      = .returned [] (some ctxDeadlineExceeded) ∧
    (limitedSet.peersDone scenarioC 1 ⟨some ctxDeadlineExceeded⟩).state.ps = scenarioC.ps ∧
    (limitedSet.peersDone scenarioC 1 ⟨some ctxDeadlineExceeded⟩).state.limit
      = scenarioC.limit :=
  peers_cancelled sortedKeys (newLimitedSet 5) scenarioC 1 ⟨some ctxDeadlineExceeded⟩
    ctxDeadlineExceeded (by decide) (by decide) rfl

/-! ## Capacity zero -/

/-- C10: on a set built with capacity 0, after any number of steps of any sequence:
`TryAdd(p)` fails with the "peers limit reached" error for every peer `p` (so neither
with the other error nor with success) and changes nothing, `Remove(p)` leaves the state
as it is, `Size()` is 0 and `Contains(p)` is false. -/
theorem zero_capacity_disabled (rangeKeys : Finset PeerID → List PeerID) (ops : List Op)
    (n : Nat) (p : PeerID) :
    ((run rangeKeys (newLimitedSet 0) (ops.take n)).TryAdd p).err = some errLimitReached ∧
    ((run rangeKeys (newLimitedSet 0) (ops.take n)).TryAdd p).state
      = run rangeKeys (newLimitedSet 0) (ops.take n) ∧
    (run rangeKeys (newLimitedSet 0) (ops.take n)).Remove p
      = run rangeKeys (newLimitedSet 0) (ops.take n) ∧
    (run rangeKeys (newLimitedSet 0) (ops.take n)).Size = 0 ∧
    (run rangeKeys (newLimitedSet 0) (ops.take n)).Contains p = false := by
  obtain ⟨hps, hlim⟩ := run_zero_capacity rangeKeys (ops.take n)
  generalize run rangeKeys (newLimitedSet 0) (ops.take n) = t at hps hlim ⊢
  simp [limitedSet.TryAdd, limitedSet.Remove, limitedSet.Size, limitedSet.Contains, hps,
    hlim, intOfUint_zero]

/-! ## Failed insertions and repeated removals -/

/-- C11: a `TryAdd(p)` that fails, with either error, leaves the set exactly as it was
(membership, `Size()`, capacity and the queue of parked readers) and hands no peer to any
waiter; its error is one of the two errors of `TryAdd`. -/
theorem tryAdd_failure_no_effect (s : limitedSet) (p : PeerID)
    (hfail : (s.TryAdd p).err ≠ none) :
    (s.TryAdd p).state = s ∧
    (s.TryAdd p).state.Size = s.Size ∧
    (s.TryAdd p).state.limit = s.limit ∧
    (∀ q : PeerID, (s.TryAdd p).state.Contains q = s.Contains q) ∧
    (s.TryAdd p).handed = [] ∧
    limitedSet.wokenReturns (s.TryAdd p) = [] ∧
    ((s.TryAdd p).err = some errAlreadyAdded ∨ (s.TryAdd p).err = some errLimitReached) := by
  have heq := tryAdd_err_eq s p hfail
  have hst : (s.TryAdd p).state = s := by rw [heq]
  have hh : (s.TryAdd p).handed = [] := by rw [heq]
  refine ⟨hst, by rw [hst], by rw [hst], fun q => by rw [hst], hh, ?_, ?_⟩
  · simp [limitedSet.wokenReturns, hh]
  · unfold limitedSet.TryAdd at hfail ⊢
    by_cases hp : p ∈ s.ps
    · simp [hp]
    · by_cases hl : ((s.ps.card : Nat) : Int) ≥ intOfUint s.limit
      · simp [hp, hl]
      · simp [hp, hl] at hfail

/-- An instance of C11: `TryAdd(P3)` on the full set of scenario A with the two parked
readers of scenario C added to it. -/
theorem tryAdd_failure_no_effect_witness :
    (({ ps := scenarioA.ps, limit := 2, waitPeer := [1, 2] } : limitedSet).TryAdd "P3").state
      = { ps := scenarioA.ps, limit := 2, waitPeer := [1, 2] } ∧
    (({ ps := scenarioA.ps, limit := 2, waitPeer := [1, 2] } : limitedSet).TryAdd
        "P3").state.Size
      = ({ ps := scenarioA.ps, limit := 2, waitPeer := [1, 2] } : limitedSet).Size ∧
    (({ ps := scenarioA.ps, limit := 2, waitPeer := [1, 2] } : limitedSet).TryAdd
        "P3").state.limit
      = ({ ps := scenarioA.ps, limit := 2, waitPeer := [1, 2] } : limitedSet).limit ∧
    (∀ q : PeerID,
      (({ ps := scenarioA.ps, limit := 2, waitPeer := [1, 2] } : limitedSet).TryAdd
          "P3").state.Contains q
        = ({ ps := scenarioA.ps, limit := 2, waitPeer := [1, 2] } : limitedSet).Contains q) ∧
    (({ ps := scenarioA.ps, limit := 2, waitPeer := [1, 2] } : limitedSet).TryAdd "P3").handed
      = [] ∧
    limitedSet.wokenReturns
        (({ ps := scenarioA.ps, limit := 2, waitPeer := [1, 2] } : limitedSet).TryAdd "P3")
      = [] ∧
    ((({ ps := scenarioA.ps, limit := 2, waitPeer := [1, 2] } : limitedSet).TryAdd "P3").err
        = some errAlreadyAdded ∨
      (({ ps := scenarioA.ps, limit := 2, waitPeer := [1, 2] } : limitedSet).TryAdd "P3").err
        = some errLimitReached) :=
  tryAdd_failure_no_effect { ps := scenarioA.ps, limit := 2, waitPeer := [1, 2] } "P3"
    (by decide)

/-- C12: `Remove` is idempotent and total: `Remove(p)` twice gives the same state as
`Remove(p)` once, in every state and for every peer `p`, and `Remove(q)` on a set that
does not contain `q` leaves the state as it is. `Remove` has no error result. -/
theorem remove_idempotent (s : limitedSet) (p q : PeerID) :
    (s.Remove p).Remove p = s.Remove p ∧
    (s.Contains q = false → s.Remove q = s) := by
  unfold limitedSet.Remove limitedSet.Contains
  by_cases hl : s.limit > 0
  · simp only [hl, if_true]
    refine ⟨by simp, ?_⟩
    intro hq
    have hq2 : q ∉ s.ps := by simpa using hq
    simp [Finset.erase_eq_of_not_mem hq2]
  · simp [hl]

/-- An instance of C12 on the set of scenario A: removing `P1` twice, and removing `P3`,
which was never added. -/
theorem remove_idempotent_witness :
    ((scenarioA.Remove "P1").Remove "P1" = scenarioA.Remove "P1" ∧
      (scenarioA.Contains "P3" = false → scenarioA.Remove "P3" = scenarioA)) ∧
    scenarioA.Contains "P3" = false ∧ scenarioA.Remove "P3" = scenarioA :=
  ⟨remove_idempotent scenarioA "P1" "P3",
    by decide, (remove_idempotent scenarioA "P1" "P3").2 (by decide)⟩

/-! ## Limits above the largest `int` -/

/-- C13: the claim that a `TryAdd` of a non-member fails with the limit error only if
`Size() ≥ capacity` does not hold for the code when the capacity exceeds the largest
`int`. On a fresh set whose limit is `2^63`, and on one whose limit is `math.MaxUint`,
the first `TryAdd` fails with "peers limit reached" although `Size()` is 0 and the limit
is at least 1: `int(ps.limit)` is negative there. -/
theorem tryAdd_fresh_fails_over_int :
    (1 ≤ overIntSet.limit ∧ overIntSet.limit < 2 ^ uintSize ∧
      overIntSet.Contains "P1" = false ∧ overIntSet.Size = 0 ∧
      ¬ (overIntSet.Size ≥ (overIntSet.limit : Int)) ∧
      (overIntSet.TryAdd "P1").err = some errLimitReached) ∧
    (1 ≤ maxUintSet.limit ∧ maxUintSet.limit < 2 ^ uintSize ∧
      maxUintSet.Contains "P1" = false ∧ maxUintSet.Size = 0 ∧
      ¬ (maxUintSet.Size ≥ (maxUintSet.limit : Int)) ∧
      (maxUintSet.TryAdd "P1").err = some errLimitReached) := by
  refine ⟨⟨by decide, by decide, by decide, by decide, by decide, ?_⟩,
    ⟨by decide, by decide, by decide, by decide, by decide, ?_⟩⟩
  · rw [tryAdd_limit_over_int overIntSet "P1" (by decide) (by decide) (by decide)]
  · rw [tryAdd_limit_over_int maxUintSet "P1" (by decide) (by decide) (by decide)]

/-! ## The guard of `Remove` -/

/-- C14: on every state reachable from `newLimitedSet capacity` by any sequence of steps,
and for every peer `p`, the guarded `Remove(p)` of the code gives the same state as the
unguarded delete of `p` from the membership. -/
theorem remove_guard_redundant (rangeKeys : Finset PeerID → List PeerID) (capacity : Nat)
    (ops : List Op) (p : PeerID) :
    (run rangeKeys (newLimitedSet capacity) ops).Remove p
      = removeUnguarded (run rangeKeys (newLimitedSet capacity) ops) p := by
  by_cases hl : (run rangeKeys (newLimitedSet capacity) ops).limit > 0
  · simp [limitedSet.Remove, removeUnguarded, hl]
  · have hz : (run rangeKeys (newLimitedSet capacity) ops).limit = 0 := by omega
    have he := run_empty_of_limit_zero rangeKeys capacity ops hz
    generalize run rangeKeys (newLimitedSet capacity) ops = t at hl hz he ⊢
    cases t with
    | mk ps limit waitPeer =>
      simp only at he hl
      subst he
      simp [limitedSet.Remove, removeUnguarded, hl]

/-! ## The wake loop -/

/-- C15: the wake loop of a successful `TryAdd(p)` terminates without blocking: with
`n` callers of `Peers` parked on the notification channel, the loop leaves through
`break LOOP` in its iteration `n + 1`, not earlier, after exactly `n` hand-offs, one to
each parked caller and each of the peer `p`, and nobody stays parked. With `n = 0` nothing
is handed off while `p` is inserted all the same, and whether `TryAdd` succeeds does not
depend on the parked callers. -/
theorem wake_loop_terminates (s : limitedSet) (p : PeerID) (k : Nat)
    (hok : (s.TryAdd p).err = none) :
    wakeLoopFuel p (s.waitPeer.length + 1 + k) s.waitPeer
      = some ((s.TryAdd p).handed, (s.TryAdd p).state.waitPeer) ∧
    (∀ fuel : Nat, fuel ≤ s.waitPeer.length → wakeLoopFuel p fuel s.waitPeer = none) ∧
    (s.TryAdd p).handed.length = s.waitPeer.length ∧
    (s.TryAdd p).handed.map Prod.fst = s.waitPeer ∧
    (∀ h ∈ (s.TryAdd p).handed, h.2 = p) ∧
    (s.TryAdd p).state.waitPeer = [] ∧
    (s.TryAdd p).state.Contains p = true ∧
    (({ ps := s.ps, limit := s.limit, waitPeer := [] } : limitedSet).TryAdd p).err = none ∧
    (({ ps := s.ps, limit := s.limit, waitPeer := [] } : limitedSet).TryAdd p).handed = [] ∧
    (({ ps := s.ps, limit := s.limit, waitPeer := [] } : limitedSet).TryAdd p).state.Contains p
      = true := by
  have heq := tryAdd_ok_eq s p hok
  have hok0 : (({ ps := s.ps, limit := s.limit, waitPeer := [] } : limitedSet).TryAdd p).err
      = none := by
    unfold limitedSet.TryAdd at hok ⊢
    by_cases hp : p ∈ s.ps
    · simp [hp] at hok
    · by_cases hl : ((s.ps.card : Nat) : Int) ≥ intOfUint s.limit
      · simp [hp, hl] at hok
      · simp [hp, hl]
  have heq0 := tryAdd_ok_eq { ps := s.ps, limit := s.limit, waitPeer := [] } p hok0
  refine ⟨?_, fun fuel hf => wakeLoopFuel_short p s.waitPeer fuel hf, ?_, ?_, ?_, ?_, ?_,
    hok0, ?_, ?_⟩
  · rw [wakeLoopFuel_enough, heq]
    simp only [Option.some.injEq]
    exact Prod.ext (wakeLoop_handed p s.waitPeer) (wakeLoop_rest p s.waitPeer)
  · rw [heq]; simp
  · rw [heq]; simp [Function.comp_def]
  · rw [heq]
    intro h hh
    obtain ⟨g, _, rfl⟩ := List.mem_map.mp hh
    rfl
  · rw [heq]
  · rw [heq]; simp [limitedSet.Contains]
  · rw [heq0]; rfl
  · rw [heq0]; simp [limitedSet.Contains]

/-- Scenario C of the specification as an instance of C15: two parked callers, so the
loop stops in its third iteration after two hand-offs of `PX`. -/
theorem wake_loop_terminates_witness :
    (wakeLoopFuel "PX" (scenarioC.waitPeer.length + 1 + 0) scenarioC.waitPeer
      = some ((scenarioC.TryAdd "PX").handed, (scenarioC.TryAdd "PX").state.waitPeer) ∧
    (∀ fuel : Nat, fuel ≤ scenarioC.waitPeer.length →
      wakeLoopFuel "PX" fuel scenarioC.waitPeer = none) ∧
    (scenarioC.TryAdd "PX").handed.length = scenarioC.waitPeer.length ∧
    (scenarioC.TryAdd "PX").handed.map Prod.fst = scenarioC.waitPeer ∧
    (∀ h ∈ (scenarioC.TryAdd "PX").handed, h.2 = "PX") ∧
    (scenarioC.TryAdd "PX").state.waitPeer = [] ∧
    (scenarioC.TryAdd "PX").state.Contains "PX" = true ∧
    (({ ps := scenarioC.ps, limit := scenarioC.limit, waitPeer := [] } : limitedSet).TryAdd
      "PX").err = none ∧
    (({ ps := scenarioC.ps, limit := scenarioC.limit, waitPeer := [] } : limitedSet).TryAdd
      "PX").handed = [] ∧
    (({ ps := scenarioC.ps, limit := scenarioC.limit, waitPeer := [] } : limitedSet).TryAdd
      "PX").state.Contains "PX" = true) ∧
    wakeLoopFuel "PX" 3 [1, 2] = some ([(1, "PX"), (2, "PX")], []) ∧
    wakeLoopFuel "PX" 2 [1, 2] = none :=
  ⟨wake_loop_terminates scenarioC "PX" 0 (by decide), by decide, by decide⟩

/-! ## Frame conditions -/

/-- C16: the capacity is fixed at construction and reads do not touch the membership:
no step (`TryAdd`, `Remove`, `Contains`, `Size`, `Peers`, entering the `select`, a
`ctx.Done()` firing) and no sequence of steps changes the capacity; `Contains` and
`Size` leave the whole state as it is; `Peers` leaves the membership as it is, whether it
returns a snapshot, parks, or returns on `ctx.Done()`. -/
theorem capacity_fixed_reads_pure (rangeKeys : Finset PeerID → List PeerID) (s : limitedSet)
    (op : Op) (ops : List Op) (p : PeerID) (g : Gid) (ctx : Context) :
    (step rangeKeys s op).limit = s.limit ∧
    (run rangeKeys s ops).limit = s.limit ∧
    (s.TryAdd p).state.limit = s.limit ∧
    (s.Remove p).limit = s.limit ∧
    (s.Peers rangeKeys g ctx).state.limit = s.limit ∧
    step rangeKeys s (.Contains p) = s ∧
    step rangeKeys s .Size = s ∧
    (s.Peers rangeKeys g ctx).state.ps = s.ps ∧
    (s.peersSelect g ctx).state.ps = s.ps ∧
    (s.peersDone g ctx).state.ps = s.ps := by
  refine ⟨step_limit rangeKeys s op, run_limit rangeKeys ops s,
    step_limit rangeKeys s (.TryAdd p), step_limit rangeKeys s (.Remove p),
    step_limit rangeKeys s (.Peers g ctx), rfl, rfl, ?_, ?_, rfl⟩
  · simp only [limitedSet.Peers, limitedSet.peersSelect]
    repeat (first | rfl | split)
  · simp only [limitedSet.peersSelect]
    repeat (first | rfl | split)

/-! ## A removal frees a slot -/

/-- C17: on a full set (`Size() = capacity`) whose capacity is positive and fits in a
signed `int`, with `p` a member and `q` not: `Remove(p)` followed by `TryAdd(q)` succeeds
and leaves `Size() = capacity` with `q` a member and `p` none; without the `Remove`,
`TryAdd(q)` fails with the "peers limit reached" error. -/
theorem remove_frees_slot (s : limitedSet) (p q : PeerID)
    (hpos : s.limit > 0) (hcap : s.limit < 2 ^ (uintSize - 1))
    (hfull : s.Size = (s.limit : Int)) (hp : s.Contains p = true)
    (hq : s.Contains q = false) :
    ((s.Remove p).TryAdd q).err = none ∧
    ((s.Remove p).TryAdd q).state.Size = (s.limit : Int) ∧
    ((s.Remove p).TryAdd q).state.Contains q = true ∧
    ((s.Remove p).TryAdd q).state.Contains p = false ∧
    (s.TryAdd q).err = some errLimitReached := by
  have hpm : p ∈ s.ps := by simpa [limitedSet.Contains] using hp
  have hqm : q ∉ s.ps := by simpa [limitedSet.Contains] using hq
  have hcard : s.ps.card = s.limit := by
    unfold limitedSet.Size at hfull
    exact_mod_cast hfull
  have hpq : p ≠ q := fun h => hqm (h ▸ hpm)
  have hrem : s.Remove p = { ps := s.ps.erase p, limit := s.limit, waitPeer := s.waitPeer } := by
    simp [limitedSet.Remove, hpos]
  have hqe : q ∉ s.ps.erase p := fun h => hqm (Finset.mem_of_mem_erase h)
  have hce : (s.ps.erase p).card = s.limit - 1 := by
    rw [Finset.card_erase_of_mem hpm, hcard]
  have hadd := tryAdd_of_room { ps := s.ps.erase p, limit := s.limit, waitPeer := s.waitPeer }
    q hcap hqe (by simp only [hce]; omega)
  have hfullq := tryAdd_of_full s q hcap hqm (by omega)
  rw [hrem, hadd, hfullq]
  refine ⟨rfl, ?_, ?_, ?_, rfl⟩
  · simp only [limitedSet.Size]
    rw [Finset.card_insert_of_not_mem hqe, hce]
    have : s.limit - 1 + 1 = s.limit := by omega
    rw [this]
  · simp [limitedSet.Contains]
  · simp [limitedSet.Contains, hpq]

/-- An instance of C17 on the full set of scenario A: `P3` is refused, and accepted once
`P1` is removed. -/
theorem remove_frees_slot_witness :
    ((scenarioA.Remove "P1").TryAdd "P3").err = none ∧
    ((scenarioA.Remove "P1").TryAdd "P3").state.Size = (scenarioA.limit : Int) ∧
    ((scenarioA.Remove "P1").TryAdd "P3").state.Contains "P3" = true ∧
    ((scenarioA.Remove "P1").TryAdd "P3").state.Contains "P1" = false ∧
    (scenarioA.TryAdd "P3").err = some errLimitReached :=
  remove_frees_slot scenarioA "P1" "P3" (by decide) (by decide) (by decide) (by decide)
    (by decide)

end discovery
